import Mathlib

/-!
# Verification of the Protocol Orchestration Engine (`ProtocolEngine`)

Shallow embedding of the TypeScript `ProtocolEngine` class (and the slice of
`TacticalCore` it calls) from this repository.  JavaScript runtime values that
flow through conditions, parameters and contexts are modelled by `JSValue`;
JS `Map`s are modelled as insertion-ordered association lists; the engine's
`EventEmitter` notifications are modelled as an append-only event log inside
the engine state; thrown JS exceptions are modelled as explicit
`Option EngineError` outcomes paired with the post-state; the unbounded
mutual recursion of `executeProtocolStep`/`progressProtocol` is modelled with
an explicit fuel parameter (`none` = the recursion did not terminate within
the given fuel).

Modelling notes, fixed once for the whole file:
* JS numbers are modelled as `Int` (every numeric literal in the engine and
  in the claims is an integer); `NaN` arises only as the result of `ToNumber`
  and is modelled there by `Option.none`.  Fractional, hexadecimal and
  exponent string literals and infinities are outside the model.
* `===` on objects/arrays is JS reference equality; two separately
  constructed values are distinct references, so the model returns `false`
  for object/array operands (aliasing is not representable here and never
  occurs in the engine: condition values and context values come from
  different sources).
* `Promise.all` fan-out over sibling steps is modelled as sequential
  execution in declaration order; the claims under study are about which
  steps are dispatched and what each dispatch does, not about interleavings.
* Re-entrant invocation of `evaluateProtocols` from inside an
  `update_situation` action (via the `situation:updated` event) is not
  modelled; the external tactical calls are abstracted by an oracle
  `Env.tac` that reports success or a thrown error message.
-/

/-- A JavaScript runtime value, as far as the engine manipulates them. -/
inductive JSValue where
  | undefined : JSValue
  | null : JSValue
  | bool (b : Bool) : JSValue
  | num (n : Int) : JSValue
  | str (s : String) : JSValue
  | arr (elems : List JSValue) : JSValue
  | obj (fields : List (String × JSValue)) : JSValue

namespace JSValue

/-- JS strict equality `===`.  Primitives compare structurally; objects and
arrays compare by reference, and two separately constructed values are
distinct references, hence `false` (see the modelling notes). -/
def strictEq : JSValue → JSValue → Bool
  | .undefined, .undefined => true
  | .null, .null => true
  | .bool a, .bool b => a == b
  | .num a, .num b => a == b
  | .str a, .str b => a == b
  | _, _ => false

/-- The string an element contributes inside `Array.prototype.join` /
`Array.prototype.toString` (`null`/`undefined` become the empty string). -/
def joinElemString : JSValue → String
  | .undefined => ""
  | .null => ""
  | .bool b => if b then "true" else "false"
  | .num n => toString n
  | .str s => s
  | .arr elems => String.intercalate "," (joinList elems)
  | .obj _ => "[object Object]"
where
  /-- `joinElemString` mapped over a list of elements. -/
  joinList : List JSValue → List String
  | [] => []
  | v :: vs => joinElemString v :: joinList vs

/-- JS `ToPrimitive` with number hint, as it applies to these values:
plain objects stringify to `"[object Object]"`, arrays to their
comma-joined elements, primitives are already primitive. -/
def toPrimitive : JSValue → JSValue
  | .obj _ => .str "[object Object]"
  | .arr elems => .str (String.intercalate "," (joinElemString.joinList elems))
  | v => v

/-- Decimal-integer fragment of JS string-to-number conversion: an optional
sign followed by one or more digits (surrounding whitespace already
stripped); the empty string converts to `0`; anything else is `NaN`
(`none`).  Fractional/hex/exponent literals are outside the model. -/
def stringToNumber (s : String) : Option Int :=
  match (s.toList.dropWhile Char.isWhitespace).reverse.dropWhile Char.isWhitespace with
  | [] => some 0
  | cs =>
    match cs.reverse with
    | '-' :: digits => (digitsToNat digits).map (fun n => -(n : Int))
    | '+' :: digits => (digitsToNat digits).map (fun n => (n : Int))
    | digits => (digitsToNat digits).map (fun n => (n : Int))
where
  /-- A nonempty all-digit character list to its value; otherwise `none`. -/
  digitsToNat : List Char → Option Nat
  | [] => none
  | [c] => if c.isDigit then some (c.toNat - 48) else none
  | c :: cs => match digitsToNat cs, c.isDigit with
    | some n, true => some ((c.toNat - 48) * 10 ^ cs.length + n)
    | _, _ => none

/-- JS `ToNumber` on an already-primitive value; `none` is `NaN`. -/
def toNumberPrim : JSValue → Option Int
  | .undefined => none
  | .null => some 0
  | .bool b => some (if b then 1 else 0)
  | .num n => some n
  | .str s => stringToNumber s
  | _ => none

/-- JS abstract relational comparison `a < b`: take primitives; if both are
strings compare lexicographically, otherwise convert to numbers and compare,
any `NaN` making the comparison `false`. -/
def lessThan (a b : JSValue) : Bool :=
  match toPrimitive a, toPrimitive b with
  | .str x, .str y => decide (x < y)
  | pa, pb =>
    match toNumberPrim pa, toNumberPrim pb with
    | some x, some y => decide (x < y)
    | _, _ => false

/-- JS `a > b` is the relational comparison `b < a` (with `NaN`/undefined
results mapped to `false`). -/
def greaterThan (a b : JSValue) : Bool := lessThan b a

/-- Field lookup on an object value; any non-object (and a missing key)
yields `undefined`. -/
def getField (v : JSValue) (k : String) : JSValue :=
  match v with
  | .obj fields => ((fields.find? (fun f => f.1 = k)).map (fun f => f.2)).getD .undefined
  | _ => .undefined

/-- The own enumerable fields contributed by `{...v}`: object fields, or
nothing for `undefined`/`null`/the other values the engine spreads. -/
def spreadFields : JSValue → List (String × JSValue)
  | .obj fields => fields
  | _ => []

end JSValue

/-- Insertion-ordered association list standing for a JS `Map` (or a plain
record object) with `String` keys. -/
abbrev JSMap (α : Type) := List (String × α)

/-- `Map.prototype.get`. -/
def mapGet {α : Type} (m : JSMap α) (k : String) : Option α :=
  (m.find? (fun e => e.1 = k)).map (fun e => e.2)

/-- `Map.prototype.set`: overwrite in place if the key exists, else append
(JS `Map`s preserve the original insertion position on overwrite). -/
def mapSet {α : Type} (m : JSMap α) (k : String) (v : α) : JSMap α :=
  if m.any (fun e => e.1 = k) then
    m.map (fun e => if e.1 = k then (k, v) else e)
  else m ++ [(k, v)]

/-- `Map.prototype.delete`. -/
def mapDelete {α : Type} (m : JSMap α) (k : String) : JSMap α :=
  m.filter (fun e => e.1 ≠ k)

/-- `interface ProtocolCondition`'s `type` field. -/
inductive ConditionType where
  | environmental
  | tactical
  | temporal
deriving Repr, DecidableEq

/-- `interface ProtocolCondition`'s `operator` field. -/
inductive ConditionOperator where
  | equals
  | greater
  | less
  | contains
deriving Repr, DecidableEq

/-- `interface ProtocolCondition`. -/
structure ProtocolCondition where
  type : ConditionType
  operator : ConditionOperator
  value : JSValue

/-- `interface ProtocolStep`. -/
structure ProtocolStep where
  id : String
  action : String
  parameters : JSValue
  nextSteps : List String
  completionCriteria : Option (List ProtocolCondition)

/-- `interface Protocol`'s `type` field. -/
inductive ProtocolType where
  | standard
  | emergency
  | custom
deriving Repr, DecidableEq

/-- `interface Protocol`. -/
structure Protocol where
  id : String
  name : String
  type : ProtocolType
  steps : List ProtocolStep
  conditions : List ProtocolCondition

/-- `interface ProtocolContext`: optional `environmental` and `tactical`
sub-maps and the optional `activeSteps` list; an absent field reads as
JS `undefined`. -/
structure ProtocolContext where
  environmental : Option JSValue := none
  tactical : Option JSValue := none
  activeSteps : Option (List String) := none

/-- A call the engine makes against the external `TacticalCore`
collaborator. -/
inductive TacticalCall where
  | addTacticalElement (layerId : String) (element : JSValue)
  | updateSituationalAwareness (center radius : JSValue)

/-- The external world as the engine sees it: the wall clock (`Date.now()`)
and the tactical collaborator, which either succeeds or throws (the thrown
error's message). -/
structure Env where
  now : Int
  tac : TacticalCall → Option String

/-- `getContextValue`: `environmental`/`tactical` read the (possibly absent,
hence `undefined`) sub-map straight off the context; `temporal` reads the
wall clock.  The TS `switch` default (`null`) is unreachable for the closed
`ConditionType`. -/
def getContextValue (env : Env) (type : ConditionType) (context : ProtocolContext) : JSValue :=
  match type with
  | .environmental => context.environmental.getD .undefined
  | .tactical => context.tactical.getD .undefined
  | .temporal => .num env.now

/-- `evaluateCondition`: resolve the context value for the condition's type,
then apply the operator with JS semantics (`===`, `>`, `<`,
`Array.isArray && includes`). -/
def evaluateCondition (env : Env) (condition : ProtocolCondition) (context : ProtocolContext) : Bool :=
  let actualValue := getContextValue env condition.type context
  match condition.operator with
  | .equals => actualValue.strictEq condition.value
  | .greater => actualValue.greaterThan condition.value
  | .less => actualValue.lessThan condition.value
  | .contains =>
    match actualValue with
    | .arr elems => elems.any (fun e => e.strictEq condition.value)
    | _ => false

/-- A notification emitted on the engine's event channel
(`this.emit(...)` in `ProtocolEngine`). -/
inductive EngineEvent where
  | protocolLoaded (id name : String)
  | protocolActivated (id initialStep : String)
  | stepExecuted (protocolId stepId : String) (complete : Bool)
  | stepError (protocolId stepId : String) (error : String)
  | protocolDeactivated (id : String)
deriving Repr, DecidableEq

/-- An exception thrown synchronously to the caller of an engine operation,
classified by throw site and carrying the JS `Error` message. -/
inductive EngineError where
  /-- `validateProtocol` threw (empty step list or dangling reference). -/
  | structuralError (message : String)
  /-- `activateProtocol` threw `Protocol ... not found`. -/
  | notFound (message : String)
  /-- `activateProtocol` threw `Conditions not met for protocol ...`. -/
  | conditionsNotMet (message : String)
  /-- `protocol.steps[0].id` on an empty step list: a JS `TypeError`
  (unreachable through the public operations, which validate at load). -/
  | typeError (message : String)
deriving Repr, DecidableEq

/-- The mutable fields of `ProtocolEngine` plus the log of emitted events:
`protocols : Map<string, Protocol>` and
`activeProtocols : Map<string, string[]>`. -/
structure EngineState where
  protocols : JSMap Protocol
  activeProtocols : JSMap (List String)
  events : List EngineEvent

/-- The freshly constructed engine: both maps empty, nothing emitted. -/
def initState : EngineState := { protocols := [], activeProtocols := [], events := [] }

/-- Append one emitted notification to the log. -/
def pushEvent (s : EngineState) (e : EngineEvent) : EngineState :=
  { s with events := s.events ++ [e] }

/-- `validateProtocol`: throws when the step list is empty, then scans the
steps in order and throws at the first `nextSteps` entry that names no step
of the protocol; `none` means validation passed. -/
def validateProtocol (protocol : Protocol) : Option EngineError :=
  if protocol.steps.isEmpty then
    some (.structuralError ("Protocol " ++ protocol.id ++ " must have at least one step"))
  else
    match protocol.steps.findSome?
        (fun step => step.nextSteps.find?
          (fun nextId => !((protocol.steps.map (fun s => s.id)).contains nextId))) with
    | some nextId =>
      some (.structuralError ("Invalid step reference " ++ nextId ++ " in protocol " ++ protocol.id))
    | none => none

/-- `loadProtocol`: validate, then store under `protocol.id` and emit
`protocol:loaded`.  The result pairs the post-state with the thrown error,
if any (a throw leaves the engine untouched because validation precedes the
store). -/
def loadProtocol (s : EngineState) (protocol : Protocol) : EngineState × Option EngineError :=
  match validateProtocol protocol with
  | some e => (s, some e)
  | none =>
    (pushEvent { s with protocols := mapSet s.protocols protocol.id protocol }
        (.protocolLoaded protocol.id protocol.name), none)

/-- `executeAction`: dispatch on the action name; the two recognized actions
forward to the tactical collaborator (success or a thrown message decided by
the oracle `Env.tac`), any other name throws `Unknown action type`.
Returns `none` on success, `some message` when the dispatch threw. -/
def executeAction (env : Env) (action : String) (parameters : JSValue) : Option String :=
  match action with
  | "mark_location" =>
    env.tac (.addTacticalElement "operations"
      (.obj [("type", .str "marker"),
             ("position", parameters.getField "position"),
             ("metadata", .obj ((parameters.getField "metadata").spreadFields.filter
                  (fun f => f.1 ≠ "timestamp") ++ [("timestamp", .num env.now)]))]))
  | "update_situation" =>
    env.tac (.updateSituationalAwareness (parameters.getField "center")
      (parameters.getField "radius"))
  | _ => some ("Unknown action type: " ++ action)

/-- The completion decision of `executeProtocolStep`: vacuously complete
when no `completionCriteria` are declared, otherwise every criterion must
evaluate true. -/
def stepIsComplete (env : Env) (step : ProtocolStep) (context : ProtocolContext) : Bool :=
  match step.completionCriteria with
  | none => true
  | some criteria => criteria.all (fun c => evaluateCondition env c context)

/-- The loop body shared by `progressProtocol` and `evaluateProtocols`: for
each step id in the list, look the step up in the protocol and run `exec` on
it (ids that resolve to no step are skipped), threading the state.
`exec` is the one-step executor at the next lower fuel; `none` aborts the
whole traversal (fuel exhausted). -/
def execStepIds (exec : EngineState → ProtocolStep → Option EngineState)
    (protocol : Protocol) : EngineState → List String → Option EngineState
  | s, [] => some s
  | s, stepId :: rest =>
    match protocol.steps.find? (fun t => t.id = stepId) with
    | none => execStepIds exec protocol s rest
    | some step =>
      match exec s step with
      | none => none
      | some s2 => execStepIds exec protocol s2 rest

/-- The active-step bookkeeping of `progressProtocol`: read the protocol's
current active-step list (`[]` if absent), drop the completed step's id,
push all of its `nextSteps` ids, and store the updated list back.  Emits
nothing. -/
def frontierUpdate (s : EngineState) (protocol : Protocol) (currentStep : ProtocolStep) :
    EngineState :=
  let activeSteps := (mapGet s.activeProtocols protocol.id).getD []
  let updatedSteps := activeSteps.filter (fun id => id ≠ currentStep.id) ++ currentStep.nextSteps
  { s with activeProtocols := mapSet s.activeProtocols protocol.id updatedSteps }

/-- The body of `progressProtocol` with the recursive one-step executor
abstracted: update the active-step list, then execute each successor. -/
def progressAux (exec : EngineState → ProtocolStep → Option EngineState)
    (s : EngineState) (protocol : Protocol) (currentStep : ProtocolStep) : Option EngineState :=
  execStepIds exec protocol (frontierUpdate s protocol currentStep) currentStep.nextSteps

/-- `executeProtocolStep`, with fuel bounding the depth of the
execute-then-progress recursion (`none` = the cascade did not finish within
the fuel; the source recursion is unbounded).  The `try`/`catch` of the
source surfaces here as the two branches on the dispatch outcome: a throw
inside `executeAction` is caught and reported as a `step:error`
notification; a successful dispatch evaluates completion, progresses when
complete, and emits `step:executed` afterwards. -/
def executeProtocolStep (env : Env) : Nat → EngineState → Protocol → ProtocolStep →
    ProtocolContext → Option EngineState
  | 0, _, _, _, _ => none
  | fuel + 1, s, protocol, step, context =>
    match executeAction env step.action step.parameters with
    | some errMsg => some (pushEvent s (.stepError protocol.id step.id errMsg))
    | none =>
      let isComplete := stepIsComplete env step context
      if isComplete then
        match progressAux (fun s' t => executeProtocolStep env fuel s' protocol t context)
            s protocol step with
        | none => none
        | some s2 => some (pushEvent s2 (.stepExecuted protocol.id step.id true))
      else
        some (pushEvent s (.stepExecuted protocol.id step.id false))

/-- `progressProtocol` as a named operation: `progressAux` with the
executor instantiated to `executeProtocolStep` at the given fuel. -/
def progressProtocol (env : Env) (fuel : Nat) (s : EngineState) (protocol : Protocol)
    (currentStep : ProtocolStep) (context : ProtocolContext) : Option EngineState :=
  progressAux (fun s' t => executeProtocolStep env fuel s' protocol t context) s protocol currentStep

/-- `activateProtocol`: look the protocol up (throw `not found` if absent),
check every protocol-level condition against the supplied context (throw
`Conditions not met` if any fails, with the engine untouched), then seed the
active-step list with exactly the first declared step's id, execute that
step, and emit `protocol:activated`.  The outer `Option` is fuel exhaustion
of the execution cascade; the inner pair is post-state plus thrown error. -/
def activateProtocol (env : Env) (fuel : Nat) (s : EngineState) (protocolId : String)
    (context : ProtocolContext) : Option (EngineState × Option EngineError) :=
  match mapGet s.protocols protocolId with
  | none => some (s, some (.notFound ("Protocol " ++ protocolId ++ " not found")))
  | some protocol =>
    if protocol.conditions.all (fun c => evaluateCondition env c context) then
      match protocol.steps with
      | [] => some (s, some (.typeError "Cannot read properties of undefined (reading 'id')"))
      | firstStep :: _ =>
        let s1 : EngineState :=
          { s with activeProtocols := mapSet s.activeProtocols protocolId [firstStep.id] }
        match executeProtocolStep env fuel s1 protocol firstStep context with
        | none => none
        | some s2 => some (pushEvent s2 (.protocolActivated protocolId firstStep.id), none)
    else
      some (s, some (.conditionsNotMet ("Conditions not met for protocol " ++ protocolId)))

/-- `deactivateProtocol`: unconditionally delete the active entry and emit
`protocol:deactivated`. -/
def deactivateProtocol (s : EngineState) (protocolId : String) : EngineState :=
  pushEvent { s with activeProtocols := mapDelete s.activeProtocols protocolId }
    (.protocolDeactivated protocolId)

/-- The context `evaluateProtocols` builds for one protocol:
`{ ...situationUpdate, activeSteps }` — the update's fields with
`activeSteps` overridden by the protocol's current active-step list. -/
def evalContext (situationUpdate : ProtocolContext) (activeSteps : List String) : ProtocolContext :=
  { situationUpdate with activeSteps := some activeSteps }

/-- The `for (const [protocolId, activeSteps] of this.activeProtocols)` loop
of `evaluateProtocols`, iterating over the snapshot of protocol ids and
reading each entry's current value when it is visited: skip ids whose
active entry or registry entry is missing, deactivate (and process no steps)
when a protocol-level condition fails, otherwise execute every currently
active step. -/
def evalLoop (env : Env) (fuel : Nat) (situationUpdate : ProtocolContext) :
    EngineState → List String → Option EngineState
  | s, [] => some s
  | s, protocolId :: rest =>
    match mapGet s.activeProtocols protocolId with
    | none => evalLoop env fuel situationUpdate s rest
    | some activeSteps =>
      match mapGet s.protocols protocolId with
      | none => evalLoop env fuel situationUpdate s rest
      | some protocol =>
        let context := evalContext situationUpdate activeSteps
        if protocol.conditions.all (fun c => evaluateCondition env c context) then
          match execStepIds (fun s' t => executeProtocolStep env fuel s' protocol t context)
              protocol s activeSteps with
          | none => none
          | some s2 => evalLoop env fuel situationUpdate s2 rest
        else
          evalLoop env fuel situationUpdate (deactivateProtocol s protocolId) rest

/-- `evaluateProtocols` (the `situation:updated` handler): run the loop over
every currently active protocol id. -/
def evaluateProtocols (env : Env) (fuel : Nat) (s : EngineState)
    (situationUpdate : ProtocolContext) : Option EngineState :=
  evalLoop env fuel situationUpdate s (s.activeProtocols.map (fun e => e.1))

theorem mapGet_map_overwrite_ne {α : Type} (m : JSMap α) (k k' : String) (v : α) (h : k' ≠ k) :
    mapGet (m.map (fun e => if e.1 = k then (k, v) else e)) k' = mapGet m k' := by
  induction m with
  | nil => rfl
  | cons e m ih =>
    by_cases hek : e.1 = k
    · simp [mapGet, List.find?, hek, Ne.symm h] at ih ⊢
      exact ih
    · by_cases hk' : e.1 = k'
      · simp [mapGet, List.find?, hek, hk', h]
      · simp [mapGet, List.find?, hek, hk'] at ih ⊢
        exact ih

theorem mapGet_map_overwrite_self {α : Type} (m : JSMap α) (k : String) (v : α) :
    m.any (fun e => e.1 = k) = true →
    mapGet (m.map (fun e => if e.1 = k then (k, v) else e)) k = some v := by
  induction m with
  | nil => intro h; simp at h
  | cons e m ih =>
    intro h
    by_cases hek : e.1 = k
    · simp [mapGet, List.find?, hek]
    · simp only [List.any_cons, Bool.or_eq_true, decide_eq_true_eq] at h
      rcases h with h | h
      · exact absurd h hek
      · simp only [List.map_cons, if_neg hek]
        simp only [mapGet, List.find?] at ih ⊢
        rw [show (decide (e.1 = k)) = false from decide_eq_false hek]
        exact ih h

theorem mapGet_mapSet {α : Type} (m : JSMap α) (k k' : String) (v : α) :
    mapGet (mapSet m k v) k' = if k' = k then some v else mapGet m k' := by
  unfold mapSet
  by_cases hany : m.any (fun e => e.1 = k)
  · rw [if_pos hany]
    by_cases hk : k' = k
    · subst hk; rw [if_pos rfl]; exact mapGet_map_overwrite_self m k' v hany
    · rw [if_neg hk]; exact mapGet_map_overwrite_ne m k k' v hk
  · rw [if_neg hany]
    by_cases hk : k' = k
    · subst hk
      have hnone : m.find? (fun e => e.1 = k') = none := by
        rw [List.find?_eq_none]
        intro e he
        simp only [List.any_eq_true] at hany
        simp only [decide_eq_true_eq]
        intro hek
        exact hany ⟨e, he, by simp [hek]⟩
      simp [mapGet, List.find?_append, hnone, List.find?]
    · by_cases hb : (m.find? (fun e => e.1 = k')).isSome
      · obtain ⟨e, he⟩ := Option.isSome_iff_exists.mp hb
        simp [mapGet, List.find?_append, he, hk]
      · have hnone := Option.not_isSome_iff_eq_none.mp hb
        simp [mapGet, List.find?_append, hnone, List.find?, Ne.symm hk, hk]

theorem mapGet_mapDelete {α : Type} (m : JSMap α) (k k' : String) :
    mapGet (mapDelete m k) k' = if k' = k then none else mapGet m k' := by
  induction m with
  | nil => simp [mapDelete, mapGet, List.find?]
  | cons e m ih =>
    by_cases hek : e.1 = k
    · by_cases hk : k' = k
      · simp_all [mapDelete, mapGet, List.find?, List.filter, hek]
      · simp_all [mapDelete, mapGet, List.find?, List.filter, hek, Ne.symm hk]
    · by_cases hk' : e.1 = k'
      · by_cases hk : k' = k
        · subst hk; exact absurd hk' hek
        · simp [mapDelete, mapGet, List.find?, List.filter, hek, hk', hk]
      · simp_all [mapDelete, mapGet, List.find?, List.filter, hek, hk']

theorem mapDelete_idem {α : Type} (m : JSMap α) (k : String) :
    mapDelete (mapDelete m k) k = mapDelete m k := by
  unfold mapDelete
  rw [List.filter_filter]
  simp

/-! ## Shared concrete objects for witnesses and counterexamples -/

/-- A fixed external environment for concrete runs: clock at `0`, every
tactical call succeeding. -/
def envOk : Env := { now := 0, tac := fun _ => none }

/-- The `roger-roger` protocol loaded by `TonyCore.loadCoreProtocols`. -/
def rogerRoger : Protocol :=
  { id := "roger-roger", name := "Roger Roger Protocol", type := .standard,
    steps :=
      [{ id := "init-comm", action := "establish_communication",
         parameters := .obj [("mode", .str "secure")],
         nextSteps := ["confirm-receipt"], completionCriteria := none },
       { id := "confirm-receipt", action := "verify_transmission",
         parameters := .obj [("requireAck", .bool true)],
         nextSteps := [], completionCriteria := none }],
    conditions := [] }

/-- A structurally invalid protocol: no steps at all. -/
def emptyStepsProtocol : Protocol :=
  { id := "empty", name := "Empty", type := .standard, steps := [], conditions := [] }

/-- The single step of `guardedProtocol`: a terminal `mark_location`. -/
def guardedStep : ProtocolStep :=
  { id := "g1", action := "mark_location", parameters := .obj [],
    nextSteps := [], completionCriteria := none }

/-- A protocol guarded by the activation condition `tactical > 5`. -/
def guardedProtocol : Protocol :=
  { id := "guarded", name := "Guarded", type := .standard,
    steps := [guardedStep],
    conditions := [⟨.tactical, .greater, .num 5⟩] }

/-- An engine state in which `guardedProtocol` is registered and currently
active on its step `g1` (as after a successful earlier activation). -/
def stateWithGuardedActive : EngineState :=
  { protocols := [("guarded", guardedProtocol)],
    activeProtocols := [("guarded", ["g1"])], events := [] }

/-! ## C1 — load-time validation and storage -/

theorem validateProtocol_none_iff (p : Protocol) :
    validateProtocol p = none ↔
      (p.steps ≠ [] ∧ ∀ step ∈ p.steps, ∀ nextId ∈ step.nextSteps,
        nextId ∈ p.steps.map (fun t => t.id)) := by
  unfold validateProtocol
  by_cases he : p.steps.isEmpty
  · rw [if_pos he]
    constructor
    · intro h; exact absurd h (by simp)
    · rintro ⟨hne, -⟩; exact absurd (List.isEmpty_iff.mp he) hne
  · rw [if_neg he]
    have hne : p.steps ≠ [] := by simpa [List.isEmpty_iff] using he
    cases hf : p.steps.findSome?
        (fun step => step.nextSteps.find?
          (fun nextId => !((p.steps.map (fun s => s.id)).contains nextId))) with
    | some nid =>
      constructor
      · intro h; exact absurd h (by simp)
      · rintro ⟨-, hall⟩
        exfalso
        obtain ⟨step, hmem, hfind⟩ := List.exists_of_findSome?_eq_some hf
        have hpred := List.find?_some hfind
        have hmemN := List.mem_of_find?_eq_some hfind
        have hin := hall step hmem nid hmemN
        simp [List.elem_iff, hin] at hpred
    | none =>
      constructor
      · intro _
        refine ⟨hne, fun step hmem nextId hmemN => ?_⟩
        have hstep := (List.findSome?_eq_none_iff.mp hf) step hmem
        have hnp := (List.find?_eq_none.mp hstep) nextId hmemN
        simpa [List.elem_iff] using hnp
      · intro _; rfl

theorem validateProtocol_some_structural (p : Protocol) (e : EngineError)
    (h : validateProtocol p = some e) : ∃ msg, e = EngineError.structuralError msg := by
  unfold validateProtocol at h
  by_cases hemp : p.steps.isEmpty
  · rw [if_pos hemp] at h
    exact ⟨_, (Option.some_inj.mp h).symm⟩
  · rw [if_neg hemp] at h
    cases hf : p.steps.findSome?
        (fun step => step.nextSteps.find?
          (fun nextId => !((p.steps.map (fun s => s.id)).contains nextId))) with
    | some nid => rw [hf] at h; exact ⟨_, (Option.some_inj.mp h).symm⟩
    | none => rw [hf] at h; exact absurd h (by simp)

theorem loadProtocol_snd (s : EngineState) (p : Protocol) :
    (loadProtocol s p).2 = validateProtocol p := by
  unfold loadProtocol
  cases validateProtocol p <;> rfl

/-- C1: `loadProtocol` fails — always with a structural error — exactly when
the protocol's step list is empty or some step's `nextSteps` names an id
absent from the protocol's own step set; a failed load leaves the engine
(and so every subsequent lookup) exactly as it was, and a successful load
stores the definition under its id, overwriting any previous definition for
that id. -/
theorem loadProtocol_validation_and_storage (s : EngineState) (p : Protocol) :
    ((loadProtocol s p).2 ≠ none ↔
      (p.steps = [] ∨ ∃ step ∈ p.steps, ∃ nextId ∈ step.nextSteps,
        nextId ∉ p.steps.map (fun t => t.id)))
    ∧ (∀ e, (loadProtocol s p).2 = some e → ∃ msg, e = EngineError.structuralError msg)
    ∧ ((loadProtocol s p).2 ≠ none → (loadProtocol s p).1 = s)
    ∧ ((loadProtocol s p).2 = none → mapGet (loadProtocol s p).1.protocols p.id = some p) := by
  refine ⟨?_, ?_, ?_, ?_⟩
  · rw [loadProtocol_snd, ne_eq, validateProtocol_none_iff p]
    push_neg
    constructor
    · intro h
      rcases Classical.em (p.steps = []) with hcase | hcase
      · exact Or.inl hcase
      · obtain ⟨step, hmem, nextId, hmemN, hnin⟩ := h hcase
        exact Or.inr ⟨step, hmem, nextId, hmemN, hnin⟩
    · intro h hne
      rcases h with h | ⟨step, hmem, nextId, hmemN, hnin⟩
      · exact absurd h hne
      · exact ⟨step, hmem, nextId, hmemN, hnin⟩
  · intro e h
    rw [loadProtocol_snd] at h
    exact validateProtocol_some_structural p e h
  · intro h
    rw [loadProtocol_snd] at h
    unfold loadProtocol
    cases hv : validateProtocol p with
    | some e => rfl
    | none => rw [hv] at h; exact absurd rfl h
  · intro h
    rw [loadProtocol_snd] at h
    unfold loadProtocol
    rw [h]
    simp [pushEvent, mapGet_mapSet]

/-- Witness for C1 at a concrete invalid protocol (empty step list): the
load fails and the fresh engine is left exactly as it was, with no entry
for the rejected protocol. -/
theorem loadProtocol_validation_and_storage_witness :
    (loadProtocol initState emptyStepsProtocol).2 ≠ none ∧
      (loadProtocol initState emptyStepsProtocol).1 = initState ∧
      mapGet (loadProtocol initState emptyStepsProtocol).1.protocols "empty" = none := by
  have h := loadProtocol_validation_and_storage initState emptyStepsProtocol
  have hfail : (loadProtocol initState emptyStepsProtocol).2 ≠ none := h.1.mpr (Or.inl rfl)
  refine ⟨hfail, h.2.2.1 hfail, ?_⟩
  rw [h.2.2.1 hfail]
  rfl

/-! ## C2 — activation outcomes -/

/-- C2 (amended): activating an unknown id fails with the not-found error
and leaves the engine unchanged; activating a registered protocol with some
activation condition evaluating false fails with the conditions-not-met
error and leaves the engine unchanged — no active-step entry is created,
and an entry left over from an earlier activation persists untouched; on
the success path the protocol's active-step entry is set to exactly the
singleton of the first declared step's id before the first step executes,
and the whole operation is that execution followed by the `activated`
notification. -/
theorem activateProtocol_outcomes (env : Env) (fuel : Nat) (s : EngineState)
    (protocolId : String) (context : ProtocolContext) :
    (mapGet s.protocols protocolId = none →
      activateProtocol env fuel s protocolId context =
        some (s, some (.notFound ("Protocol " ++ protocolId ++ " not found"))))
    ∧ (∀ protocol, mapGet s.protocols protocolId = some protocol →
        (∃ c ∈ protocol.conditions, evaluateCondition env c context = false) →
        activateProtocol env fuel s protocolId context =
          some (s, some (.conditionsNotMet ("Conditions not met for protocol " ++ protocolId))))
    ∧ (∀ protocol firstStep rest, mapGet s.protocols protocolId = some protocol →
        (∀ c ∈ protocol.conditions, evaluateCondition env c context = true) →
        protocol.steps = firstStep :: rest →
        mapGet (mapSet s.activeProtocols protocolId [firstStep.id]) protocolId
            = some [firstStep.id]
        ∧ activateProtocol env fuel s protocolId context =
            (executeProtocolStep env fuel
                { s with activeProtocols := mapSet s.activeProtocols protocolId [firstStep.id] }
                protocol firstStep context).map
              (fun s2 => (pushEvent s2 (.protocolActivated protocolId firstStep.id), none))) := by
  refine ⟨?_, ?_, ?_⟩
  · intro h
    simp only [activateProtocol, h]
  · intro protocol hp hc
    have hall : protocol.conditions.all (fun c => evaluateCondition env c context) = false := by
      rw [List.all_eq_false]
      obtain ⟨c, hmem, hev⟩ := hc
      exact ⟨c, hmem, by simp [hev]⟩
    simp only [activateProtocol, hp, hall, Bool.false_eq_true, if_false]
  · intro protocol firstStep rest hp hc hsteps
    have hall : protocol.conditions.all (fun c => evaluateCondition env c context) = true :=
      List.all_eq_true.mpr (fun c hmem => by simp [hc c hmem])
    constructor
    · rw [mapGet_mapSet]
      simp
    · simp only [activateProtocol, hp, hall, if_true, hsteps]
      cases hex : executeProtocolStep env fuel
          { s with activeProtocols := mapSet s.activeProtocols protocolId [firstStep.id] }
          protocol firstStep context with
      | none => rfl
      | some s2 => rfl

/-- Counterexample to C2 as stated: `guardedProtocol` is registered and
already active on `g1`; activating it again in an empty context fails with
the conditions-not-met error, yet afterwards the protocol still *has* an
active-step entry (the one left over from the earlier activation), so the
failure does not leave the active-step set absent. -/
theorem activateProtocol_conditionsNotMet_entry_persists :
    activateProtocol envOk 1 stateWithGuardedActive "guarded" {} =
      some (stateWithGuardedActive,
        some (.conditionsNotMet "Conditions not met for protocol guarded"))
    ∧ mapGet stateWithGuardedActive.activeProtocols "guarded" = some ["g1"] := by
  exact ⟨rfl, rfl⟩

/-- Witness for C2's amended theorem: unknown-id activation on the empty
engine fails with not-found and changes nothing. -/
theorem activateProtocol_outcomes_witness :
    activateProtocol envOk 1 initState "ghost" {} =
      some (initState, some (.notFound "Protocol ghost not found")) :=
  (activateProtocol_outcomes envOk 1 initState "ghost" {}).1 rfl

/-! ## C3 — progression along the step graph -/

/-- C3: when a completed step progresses, the protocol's active-step list
loses that step's id and gains all of its `nextSteps` ids (the bookkeeping
itself emits nothing); progression then dispatches exactly the listed
successors: an empty `nextSteps` list means no dispatch at all (the step
just drops out of the frontier), and successors `[a, b]` mean exactly one
dispatch of `a`'s step followed by exactly one dispatch of `b`'s step. -/
theorem progressProtocol_frontier (env : Env) (fuel : Nat) (s : EngineState)
    (protocol : Protocol) (currentStep : ProtocolStep) (context : ProtocolContext) :
    mapGet (frontierUpdate s protocol currentStep).activeProtocols protocol.id
        = some (((mapGet s.activeProtocols protocol.id).getD []).filter
            (fun id => id ≠ currentStep.id) ++ currentStep.nextSteps)
    ∧ (frontierUpdate s protocol currentStep).events = s.events
    ∧ progressProtocol env fuel s protocol currentStep context =
        execStepIds (fun s' t => executeProtocolStep env fuel s' protocol t context) protocol
          (frontierUpdate s protocol currentStep) currentStep.nextSteps
    ∧ (currentStep.nextSteps = [] →
        progressProtocol env fuel s protocol currentStep context =
          some (frontierUpdate s protocol currentStep))
    ∧ (∀ a b stepA stepB, currentStep.nextSteps = [a, b] →
        protocol.steps.find? (fun t => t.id = a) = some stepA →
        protocol.steps.find? (fun t => t.id = b) = some stepB →
        progressProtocol env fuel s protocol currentStep context =
          (executeProtocolStep env fuel (frontierUpdate s protocol currentStep)
              protocol stepA context).bind
            (fun s2 => executeProtocolStep env fuel s2 protocol stepB context)) := by
  refine ⟨?_, ?_, ?_, ?_, ?_⟩
  · simp only [frontierUpdate]
    rw [mapGet_mapSet]
    simp
  · rfl
  · rfl
  · intro h
    unfold progressProtocol progressAux
    rw [h]
    rfl
  · intro a b stepA stepB hnext hfa hfb
    unfold progressProtocol progressAux
    rw [hnext]
    simp only [execStepIds, hfa, hfb]
    cases hex : executeProtocolStep env fuel (frontierUpdate s protocol currentStep)
        protocol stepA context with
    | none => rfl
    | some s2 =>
      simp only [Option.bind]
      cases hex2 : executeProtocolStep env fuel s2 protocol stepB context with
      | none => rfl
      | some s3 => rfl

/-- A three-step fan-out protocol: `root` branches to both `a` and `b`. -/
def fanStepA : ProtocolStep :=
  { id := "a", action := "alpha_action", parameters := .obj [],
    nextSteps := [], completionCriteria := none }

def fanStepB : ProtocolStep :=
  { id := "b", action := "beta_action", parameters := .obj [],
    nextSteps := [], completionCriteria := none }

def fanStepRoot : ProtocolStep :=
  { id := "root", action := "root_action", parameters := .obj [],
    nextSteps := ["a", "b"], completionCriteria := none }

def fanOutProtocol : Protocol :=
  { id := "fan", name := "Fan Out", type := .standard,
    steps := [fanStepRoot, fanStepA, fanStepB], conditions := [] }

/-- The fan-out protocol registered and active on its root step. -/
def stateWithFanActive : EngineState :=
  { protocols := [("fan", fanOutProtocol)],
    activeProtocols := [("fan", ["root"])], events := [] }

/-- Witness for C3 at the concrete fan-out protocol: progressing the
completed root dispatches `a` once and then `b` once, from the state whose
`fan` entry has become `["a", "b"]`. -/
theorem progressProtocol_frontier_witness :
    progressProtocol envOk 1 stateWithFanActive fanOutProtocol fanStepRoot {} =
      (executeProtocolStep envOk 1 (frontierUpdate stateWithFanActive fanOutProtocol fanStepRoot)
          fanOutProtocol fanStepA {}).bind
        (fun s2 => executeProtocolStep envOk 1 s2 fanOutProtocol fanStepB {}) ∧
    mapGet (frontierUpdate stateWithFanActive fanOutProtocol fanStepRoot).activeProtocols "fan"
      = some ["a", "b"] := by
  have h := progressProtocol_frontier envOk 1 stateWithFanActive fanOutProtocol fanStepRoot {}
  exact ⟨h.2.2.2.2 "a" "b" fanStepA fanStepB rfl rfl rfl, h.1⟩

/-! ## C4 — situational re-evaluation -/

/-- C4: on a situational update, each currently-active protocol is checked
against the context built from the update plus its current active-step
list: if some protocol-level condition evaluates false there, the protocol
is deactivated — its active entry removed, the deactivation notification
emitted — and none of its steps run this round; otherwise every step id in
its current active list is (re-)executed against that same context.  The
handler itself is this loop over the snapshot of active protocol ids. -/
theorem evaluateProtocols_reevaluation (env : Env) (fuel : Nat) (upd : ProtocolContext)
    (s : EngineState) (protocolId : String) (rest : List String)
    (activeSteps : List String) (protocol : Protocol)
    (hA : mapGet s.activeProtocols protocolId = some activeSteps)
    (hP : mapGet s.protocols protocolId = some protocol) :
    ((∃ c ∈ protocol.conditions,
        evaluateCondition env c (evalContext upd activeSteps) = false) →
      evalLoop env fuel upd s (protocolId :: rest) =
        evalLoop env fuel upd (deactivateProtocol s protocolId) rest)
    ∧ mapGet (deactivateProtocol s protocolId).activeProtocols protocolId = none
    ∧ (deactivateProtocol s protocolId).events
        = s.events ++ [EngineEvent.protocolDeactivated protocolId]
    ∧ ((∀ c ∈ protocol.conditions,
          evaluateCondition env c (evalContext upd activeSteps) = true) →
        evalLoop env fuel upd s (protocolId :: rest) =
          (execStepIds (fun s' t => executeProtocolStep env fuel s' protocol t
              (evalContext upd activeSteps)) protocol s activeSteps).bind
            (fun s2 => evalLoop env fuel upd s2 rest))
    ∧ evaluateProtocols env fuel s upd
        = evalLoop env fuel upd s (s.activeProtocols.map (fun e => e.1)) := by
  refine ⟨?_, ?_, ?_, ?_, rfl⟩
  · intro hc
    have hall : protocol.conditions.all
        (fun c => evaluateCondition env c (evalContext upd activeSteps)) = false := by
      rw [List.all_eq_false]
      obtain ⟨c, hm, he⟩ := hc
      exact ⟨c, hm, by simp [he]⟩
    simp only [evalLoop, hA, hP, hall, Bool.false_eq_true, if_false]
  · simp [deactivateProtocol, pushEvent, mapGet_mapDelete]
  · rfl
  · intro hc
    have hall : protocol.conditions.all
        (fun c => evaluateCondition env c (evalContext upd activeSteps)) = true :=
      List.all_eq_true.mpr (fun c hm => by simp [hc c hm])
    simp only [evalLoop, hA, hP, hall, if_true]
    cases hex : execStepIds (fun s' t => executeProtocolStep env fuel s' protocol t
        (evalContext upd activeSteps)) protocol s activeSteps with
    | none => rfl
    | some s2 => rfl

/-- Witness for C4 at a concrete state: `guardedProtocol` is active but its
`tactical > 5` condition fails against the empty update, so the
re-evaluation pass deactivates it (entry gone, notification emitted) and
executes none of its steps. -/
theorem evaluateProtocols_reevaluation_witness :
    evaluateProtocols envOk 1 stateWithGuardedActive {} =
      some (deactivateProtocol stateWithGuardedActive "guarded")
    ∧ mapGet (deactivateProtocol stateWithGuardedActive "guarded").activeProtocols "guarded"
        = none := by
  have h := evaluateProtocols_reevaluation envOk 1 {} stateWithGuardedActive "guarded" []
    ["g1"] guardedProtocol rfl rfl
  have hd := h.1 ⟨⟨.tactical, .greater, .num 5⟩, List.mem_singleton.mpr rfl, rfl⟩
  refine ⟨?_, h.2.1⟩
  rw [h.2.2.2.2]
  show evalLoop envOk 1 {} stateWithGuardedActive ["guarded"] = _
  rw [hd]
  rfl

/-! ## C5 — the tactical-greater-5 example condition -/

/-- The example condition of the claim: kind `tactical`, operator
`greater`, comparison value `5`. -/
def tacticalGreater5 : ProtocolCondition := ⟨.tactical, .greater, .num 5⟩

/-- The example context with `tactical.threat = 3`. -/
def contextThreat3 : ProtocolContext := { tactical := some (.obj [("threat", .num 3)]) }

/-- The example context with `tactical.threat = 9`. -/
def contextThreat9 : ProtocolContext := { tactical := some (.obj [("threat", .num 9)]) }

/-- Counterexample to C5 as stated: against `{tactical:{threat:9}}` the
condition evaluates `false`, not `true` — `getContextValue` resolves the
*whole* `tactical` sub-map, never the `threat` field, and the JS comparison
`{threat: 9} > 5` converts the object to `NaN`, hence `false`. -/
theorem evaluateCondition_threat9_is_false :
    evaluateCondition envOk tacticalGreater5 contextThreat9 = false := rfl

/-- C5 (amended): the condition `{kind:"tactical", operator:"greater",
value:5}` evaluates `false` against `{tactical:{threat:3}}`, `false`
against `{tactical:{threat:9}}`, and `false` (without raising) against the
empty context — in every case the resolved operand is the whole `tactical`
sub-map (or `undefined` when absent), which is non-numeric, so the
comparison is `false` regardless of the clock or the tactical
collaborator. -/
theorem evaluateCondition_tactical_greater_submap (env : Env) :
    evaluateCondition env tacticalGreater5 contextThreat3 = false
    ∧ evaluateCondition env tacticalGreater5 contextThreat9 = false
    ∧ evaluateCondition env tacticalGreater5 {} = false :=
  ⟨rfl, rfl, rfl⟩

/-! ## C6 — step-local failure isolation -/

/-- C6: a failed action dispatch (in particular any unknown action name) is
caught inside the step executor: the failure is recorded as the step-error
notification and nothing else happens — no completion evaluation, no
progression, both engine maps untouched (so the step's id stays in the
active-step list), no exception to the caller — and the remaining sibling
dispatches and the remaining active protocols of the same pass still
run. -/
theorem executeProtocolStep_dispatch_failure (env : Env) (fuel : Nat) (s : EngineState)
    (protocol : Protocol) (step : ProtocolStep) (context : ProtocolContext) (errMsg : String)
    (hfail : executeAction env step.action step.parameters = some errMsg) :
    executeProtocolStep env (fuel + 1) s protocol step context
        = some (pushEvent s (.stepError protocol.id step.id errMsg))
    ∧ (pushEvent s (.stepError protocol.id step.id errMsg)).activeProtocols = s.activeProtocols
    ∧ (pushEvent s (.stepError protocol.id step.id errMsg)).protocols = s.protocols
    ∧ (pushEvent s (.stepError protocol.id step.id errMsg)).events
        = s.events ++ [.stepError protocol.id step.id errMsg]
    ∧ (∀ name parameters, name ≠ "mark_location" → name ≠ "update_situation" →
        executeAction env name parameters = some ("Unknown action type: " ++ name))
    ∧ (∀ rest, protocol.steps.find? (fun t => t.id = step.id) = some step →
        execStepIds (fun s' t => executeProtocolStep env (fuel + 1) s' protocol t context)
            protocol s (step.id :: rest)
          = execStepIds (fun s' t => executeProtocolStep env (fuel + 1) s' protocol t context)
              protocol (pushEvent s (.stepError protocol.id step.id errMsg)) rest)
    ∧ (∀ upd restIds protocolId,
        mapGet s.activeProtocols protocolId = some [step.id] →
        mapGet s.protocols protocolId = some protocol →
        (∀ c ∈ protocol.conditions,
          evaluateCondition env c (evalContext upd [step.id]) = true) →
        context = evalContext upd [step.id] →
        protocol.steps.find? (fun t => t.id = step.id) = some step →
        evalLoop env (fuel + 1) upd s (protocolId :: restIds)
          = evalLoop env (fuel + 1) upd
              (pushEvent s (.stepError protocol.id step.id errMsg)) restIds) := by
  have hexe : executeProtocolStep env (fuel + 1) s protocol step context
      = some (pushEvent s (.stepError protocol.id step.id errMsg)) := by
    simp only [executeProtocolStep, hfail]
  refine ⟨hexe, rfl, rfl, rfl, ?_, ?_, ?_⟩
  · intro name parameters h1 h2
    unfold executeAction
    split
    · exact absurd rfl h1
    · exact absurd rfl h2
    · rfl
  · intro rest hfind
    simp only [execStepIds, hfind, hexe]
  · intro upd restIds protocolId hA hP hcond hctx hfind
    have hall : protocol.conditions.all
        (fun c => evaluateCondition env c (evalContext upd [step.id])) = true :=
      List.all_eq_true.mpr (fun c hm => by simp [hcond c hm])
    simp only [evalLoop, hA, hP, hall, if_true]
    have hexe' : executeProtocolStep env (fuel + 1) s protocol step (evalContext upd [step.id])
        = some (pushEvent s (.stepError protocol.id step.id errMsg)) := by
      rw [← hctx]; exact hexe
    simp only [execStepIds, hfind, hexe']

/-- Witness for C6 at a concrete unknown action: executing the fan-out
root step (action `root_action`, recognized by no dispatcher branch)
records the step error and leaves both maps untouched. -/
theorem executeProtocolStep_dispatch_failure_witness :
    executeProtocolStep envOk 1 stateWithFanActive fanOutProtocol fanStepRoot {}
        = some (pushEvent stateWithFanActive
            (.stepError "fan" "root" "Unknown action type: root_action"))
    ∧ (pushEvent stateWithFanActive
          (.stepError "fan" "root" "Unknown action type: root_action")).activeProtocols
        = stateWithFanActive.activeProtocols := by
  have h := executeProtocolStep_dispatch_failure envOk 0 stateWithFanActive fanOutProtocol
    fanStepRoot {} "Unknown action type: root_action" rfl
  exact ⟨h.1, h.2.1⟩

/-! ## C7 — execution notifications -/

/-- Does an event carry the `step:executed` channel? -/
def isExecutionNotification : EngineEvent → Bool
  | .stepExecuted _ _ _ => true
  | _ => false

theorem execStepIds_events_mono (exec : EngineState → ProtocolStep → Option EngineState)
    (protocol : Protocol)
    (hexec : ∀ s t s', exec s t = some s' → ∃ tail, s'.events = s.events ++ tail) :
    ∀ ids s s', execStepIds exec protocol s ids = some s' →
      ∃ tail, s'.events = s.events ++ tail := by
  intro ids
  induction ids with
  | nil =>
    intro s s' h
    simp only [execStepIds] at h
    exact ⟨[], by rw [← Option.some_inj.mp h]; simp⟩
  | cons stepId rest ih =>
    intro s s' h
    simp only [execStepIds] at h
    cases hfind : protocol.steps.find? (fun t => t.id = stepId) with
    | none =>
      simp only [hfind] at h
      exact ih s s' h
    | some t =>
      simp only [hfind] at h
      cases hex : exec s t with
      | none => simp only [hex] at h; exact absurd h (by simp)
      | some s2 =>
        simp only [hex] at h
        obtain ⟨t1, h1⟩ := hexec s t s2 hex
        obtain ⟨t2, h2⟩ := ih s2 s' h
        exact ⟨t1 ++ t2, by rw [h2, h1, List.append_assoc]⟩

theorem executeProtocolStep_events_mono (env : Env) (protocol : Protocol)
    (context : ProtocolContext) :
    ∀ fuel s step s', executeProtocolStep env fuel s protocol step context = some s' →
      ∃ tail, s'.events = s.events ++ tail := by
  intro fuel
  induction fuel with
  | zero =>
    intro s step s' h
    exact absurd h (by simp [executeProtocolStep])
  | succ fuel ih =>
    intro s step s' h
    simp only [executeProtocolStep] at h
    cases ha : executeAction env step.action step.parameters with
    | some errMsg =>
      simp only [ha] at h
      exact ⟨[.stepError protocol.id step.id errMsg],
        by rw [← Option.some_inj.mp h]; rfl⟩
    | none =>
      simp only [ha] at h
      by_cases hc : stepIsComplete env step context
      · rw [if_pos hc] at h
        cases hp : progressAux (fun s' t => executeProtocolStep env fuel s' protocol t context)
            s protocol step with
        | none => simp only [hp] at h; exact absurd h (by simp)
        | some s2 =>
          simp only [hp] at h
          unfold progressAux at hp
          obtain ⟨t1, h1⟩ := execStepIds_events_mono
            (fun s' t => executeProtocolStep env fuel s' protocol t context) protocol
            (fun s t s' hex => ih s t s' hex) step.nextSteps
            (frontierUpdate s protocol step) s2 hp
          refine ⟨t1 ++ [.stepExecuted protocol.id step.id true], ?_⟩
          rw [← Option.some_inj.mp h]
          show s2.events ++ [EngineEvent.stepExecuted protocol.id step.id true] = _
          rw [h1]
          show (frontierUpdate s protocol step).events ++ t1 ++ _ = _
          rw [show (frontierUpdate s protocol step).events = s.events from rfl,
            List.append_assoc]
      · rw [if_neg hc] at h
        exact ⟨[.stepExecuted protocol.id step.id false],
          by rw [← Option.some_inj.mp h]; rfl⟩

/-- Counterexample to C7 as stated: executing the fan-out root step — whose
dispatch fails with an unknown action — emits only the step-error
notification; the resulting event log contains no `step:executed`
notification at all, so a failed dispatch does not produce the execution
notification (and carries no completion flag). -/
theorem executionNotification_missing_on_failure :
    executeProtocolStep envOk 1 initState fanOutProtocol fanStepRoot {}
        = some (pushEvent initState
            (.stepError "fan" "root" "Unknown action type: root_action"))
    ∧ (pushEvent initState
          (.stepError "fan" "root" "Unknown action type: root_action")).events.any
        isExecutionNotification = false :=
  ⟨rfl, rfl⟩

/-- C7 (amended): every *terminating* execution of a step appends
notifications ending in exactly one terminal notification for that step:
`step:executed` carrying the protocol id, the step id and the completion
flag when the dispatch succeeded, or `step:error` carrying the protocol id,
the step id and the error when the dispatch failed; and when nothing
progressed (failed dispatch, or an incomplete step) that terminal
notification is the only notification added. -/
theorem executeProtocolStep_terminal_notification (env : Env) (fuel : Nat) (s : EngineState)
    (protocol : Protocol) (step : ProtocolStep) (context : ProtocolContext) (s' : EngineState)
    (h : executeProtocolStep env fuel s protocol step context = some s') :
    ∃ mid, s'.events = s.events ++ mid ++
        [match executeAction env step.action step.parameters with
         | some errMsg => EngineEvent.stepError protocol.id step.id errMsg
         | none => EngineEvent.stepExecuted protocol.id step.id (stepIsComplete env step context)]
      ∧ ((executeAction env step.action step.parameters).isSome ∨
            stepIsComplete env step context = false → mid = []) := by
  cases fuel with
  | zero => exact absurd h (by simp [executeProtocolStep])
  | succ fuel =>
    simp only [executeProtocolStep] at h
    cases ha : executeAction env step.action step.parameters with
    | some errMsg =>
      simp only [ha] at h
      refine ⟨[], ?_, fun _ => rfl⟩
      rw [← Option.some_inj.mp h]
      simp [pushEvent, ha]
    | none =>
      simp only [ha] at h
      by_cases hc : stepIsComplete env step context
      · rw [if_pos hc] at h
        cases hp : progressAux (fun s' t => executeProtocolStep env fuel s' protocol t context)
            s protocol step with
        | none => simp only [hp] at h; exact absurd h (by simp)
        | some s2 =>
          simp only [hp] at h
          unfold progressAux at hp
          obtain ⟨t1, h1⟩ := execStepIds_events_mono
            (fun s' t => executeProtocolStep env fuel s' protocol t context) protocol
            (fun s t s' hex => executeProtocolStep_events_mono env protocol context fuel s t s' hex)
            step.nextSteps (frontierUpdate s protocol step) s2 hp
          refine ⟨t1, ?_, ?_⟩
          · rw [← Option.some_inj.mp h]
            show s2.events ++ [EngineEvent.stepExecuted protocol.id step.id true] = _
            rw [h1]
            show (frontierUpdate s protocol step).events ++ t1 ++ _ = _
            rw [show (frontierUpdate s protocol step).events = s.events from rfl,
              List.append_assoc]
            simp [ha, hc]
          · intro hcase
            rcases hcase with hs | hfalse
            · exact absurd hs (by simp)
            · rw [hc] at hfalse; exact absurd hfalse (by simp)
      · rw [if_neg hc] at h
        refine ⟨[], ?_, fun _ => rfl⟩
        rw [← Option.some_inj.mp h]
        have hcf : stepIsComplete env step context = false := by
          simpa using hc
        simp [pushEvent, ha, hcf]

/-- Witness for C7's amended theorem at a concrete successful dispatch:
executing `guardedStep` (a recognized `mark_location` action with no
completion criteria) terminates and its event log ends with the
`step:executed` notification carrying the completion flag `true`. -/
theorem executeProtocolStep_terminal_notification_witness :
    ∃ s' mid, executeProtocolStep envOk 1 stateWithGuardedActive guardedProtocol guardedStep {}
        = some s'
      ∧ s'.events = stateWithGuardedActive.events ++ mid
          ++ [EngineEvent.stepExecuted "guarded" "g1" true] := by
  obtain ⟨mid, h1, h2⟩ := executeProtocolStep_terminal_notification envOk 1
    stateWithGuardedActive guardedProtocol guardedStep {} _ rfl
  exact ⟨_, mid, rfl, h1⟩

/-! ## C8 — deactivation idempotence -/

/-- Counterexample to C8 as stated: deactivating `guardedProtocol` twice
produces *two* identical deactivation notifications, not a single one —
the notification is emitted unconditionally on every call, whether or not
an active entry was present. -/
theorem deactivateProtocol_double_notification :
    deactivateProtocol (deactivateProtocol stateWithGuardedActive "guarded") "guarded" =
      { protocols := [("guarded", guardedProtocol)],
        activeProtocols := [],
        events := [.protocolDeactivated "guarded", .protocolDeactivated "guarded"] } ∧
    ((deactivateProtocol (deactivateProtocol stateWithGuardedActive "guarded")
        "guarded").events.count (EngineEvent.protocolDeactivated "guarded")) = 2 :=
  ⟨rfl, rfl⟩

/-- C8 (amended): deactivation is idempotent on the engine's maps: after
one call the active entry is absent, and a second call changes neither the
active map nor the registry — only the first call's notification reflects a
state change, but the notification itself is emitted unconditionally, so
the second call appends one more (redundant) deactivation notification. -/
theorem deactivateProtocol_idempotent_maps (s : EngineState) (protocolId : String) :
    mapGet (deactivateProtocol s protocolId).activeProtocols protocolId = none
    ∧ (deactivateProtocol (deactivateProtocol s protocolId) protocolId).activeProtocols
        = (deactivateProtocol s protocolId).activeProtocols
    ∧ (deactivateProtocol (deactivateProtocol s protocolId) protocolId).protocols
        = s.protocols
    ∧ (deactivateProtocol (deactivateProtocol s protocolId) protocolId).events
        = (deactivateProtocol s protocolId).events
            ++ [EngineEvent.protocolDeactivated protocolId] := by
  refine ⟨?_, ?_, rfl, rfl⟩
  · simp [deactivateProtocol, pushEvent, mapGet_mapDelete]
  · simp [deactivateProtocol, pushEvent, mapDelete_idem]

/-! ## C9 — every active protocol is registered -/

/-- The engine invariant behind C9: every active protocol id is registered,
and every registry entry is stored under its own protocol id (which is how
`loadProtocol` stores them, and what lets progression write back under
`protocol.id`). -/
def EngineInv (s : EngineState) : Prop :=
  (∀ protocolId, (mapGet s.activeProtocols protocolId).isSome →
    (mapGet s.protocols protocolId).isSome)
  ∧ (∀ protocolId p, mapGet s.protocols protocolId = some p → p.id = protocolId)

/-- The engine states reachable from a fresh engine through the engine's
operations (loading, activating, the situational-update handler, and
deactivation). -/
inductive Reachable : EngineState → Prop where
  | init : Reachable initState
  | load (s : EngineState) (p : Protocol) :
      Reachable s → Reachable (loadProtocol s p).1
  | activate (env : Env) (fuel : Nat) (s : EngineState) (protocolId : String)
      (context : ProtocolContext) (s' : EngineState) (e : Option EngineError) :
      Reachable s → activateProtocol env fuel s protocolId context = some (s', e) →
      Reachable s'
  | evaluate (env : Env) (fuel : Nat) (s : EngineState) (upd : ProtocolContext)
      (s' : EngineState) :
      Reachable s → evaluateProtocols env fuel s upd = some s' → Reachable s'
  | deactivate (s : EngineState) (protocolId : String) :
      Reachable s → Reachable (deactivateProtocol s protocolId)

theorem execStepIds_preserves (P : EngineState → Prop)
    (exec : EngineState → ProtocolStep → Option EngineState) (protocol : Protocol)
    (hexec : ∀ s t s', P s → exec s t = some s' → P s') :
    ∀ ids s s', P s → execStepIds exec protocol s ids = some s' → P s' := by
  intro ids
  induction ids with
  | nil =>
    intro s s' hP h
    simp only [execStepIds] at h
    rw [← Option.some_inj.mp h]
    exact hP
  | cons stepId rest ih =>
    intro s s' hP h
    simp only [execStepIds] at h
    cases hfind : protocol.steps.find? (fun t => t.id = stepId) with
    | none =>
      simp only [hfind] at h
      exact ih s s' hP h
    | some t =>
      simp only [hfind] at h
      cases hex : exec s t with
      | none => simp only [hex] at h; exact absurd h (by simp)
      | some s2 =>
        simp only [hex] at h
        exact ih s2 s' (hexec s t s2 hP hex) h

theorem executeProtocolStep_preserves_inv (env : Env) (protocol : Protocol)
    (context : ProtocolContext) (base : JSMap Protocol)
    (hbase : (mapGet base protocol.id).isSome) :
    ∀ fuel s step s',
      (EngineInv s ∧ s.protocols = base) →
      executeProtocolStep env fuel s protocol step context = some s' →
      EngineInv s' ∧ s'.protocols = base := by
  intro fuel
  induction fuel with
  | zero =>
    intro s step s' _ h
    exact absurd h (by simp [executeProtocolStep])
  | succ fuel ih =>
    intro s step s' hP h
    simp only [executeProtocolStep] at h
    cases ha : executeAction env step.action step.parameters with
    | some errMsg =>
      simp only [ha] at h
      rw [← Option.some_inj.mp h]
      exact hP
    | none =>
      simp only [ha] at h
      by_cases hc : stepIsComplete env step context
      · rw [if_pos hc] at h
        cases hp : progressAux (fun s' t => executeProtocolStep env fuel s' protocol t context)
            s protocol step with
        | none => simp only [hp] at h; exact absurd h (by simp)
        | some s2 =>
          simp only [hp] at h
          unfold progressAux at hp
          have hP1 : EngineInv (frontierUpdate s protocol step)
              ∧ (frontierUpdate s protocol step).protocols = base := by
            refine ⟨⟨?_, hP.1.2⟩, hP.2⟩
            intro pid hpid
            simp only [frontierUpdate] at hpid
            rw [mapGet_mapSet] at hpid
            by_cases hpe : pid = protocol.id
            · subst hpe
              show (mapGet s.protocols protocol.id).isSome
              rw [hP.2]
              exact hbase
            · rw [if_neg hpe] at hpid
              exact hP.1.1 pid hpid
          have hres := execStepIds_preserves
            (fun st => EngineInv st ∧ st.protocols = base)
            (fun s' t => executeProtocolStep env fuel s' protocol t context) protocol
            (fun sa t sb hPs hexe => ih sa t sb hPs hexe)
            step.nextSteps (frontierUpdate s protocol step) s2 hP1 hp
          rw [← Option.some_inj.mp h]
          exact hres
      · rw [if_neg hc] at h
        rw [← Option.some_inj.mp h]
        exact hP

theorem loadProtocol_preserves_inv (s : EngineState) (p : Protocol) (hI : EngineInv s) :
    EngineInv (loadProtocol s p).1 := by
  unfold loadProtocol
  cases hv : validateProtocol p with
  | some e => exact hI
  | none =>
    constructor
    · intro pid hpid
      show (mapGet (mapSet s.protocols p.id p) pid).isSome
      rw [mapGet_mapSet]
      by_cases hpe : pid = p.id
      · rw [if_pos hpe]; rfl
      · rw [if_neg hpe]
        exact hI.1 pid hpid
    · intro pid q hq
      have hq' : mapGet (mapSet s.protocols p.id p) pid = some q := hq
      rw [mapGet_mapSet] at hq'
      by_cases hpe : pid = p.id
      · rw [if_pos hpe] at hq'
        rw [← Option.some_inj.mp hq', hpe]
      · rw [if_neg hpe] at hq'
        exact hI.2 pid q hq'

theorem deactivateProtocol_preserves_inv (s : EngineState) (protocolId : String)
    (hI : EngineInv s) : EngineInv (deactivateProtocol s protocolId) := by
  constructor
  · intro pid hpid
    have hpid' : (mapGet (mapDelete s.activeProtocols protocolId) pid).isSome := hpid
    rw [mapGet_mapDelete] at hpid'
    by_cases hpe : pid = protocolId
    · rw [if_pos hpe] at hpid'; exact absurd hpid' (by simp)
    · rw [if_neg hpe] at hpid'
      exact hI.1 pid hpid'
  · exact hI.2

theorem activateProtocol_preserves_inv (env : Env) (fuel : Nat) (s : EngineState)
    (protocolId : String) (context : ProtocolContext) (s' : EngineState)
    (e : Option EngineError) (hI : EngineInv s)
    (h : activateProtocol env fuel s protocolId context = some (s', e)) :
    EngineInv s' := by
  unfold activateProtocol at h
  cases hp : mapGet s.protocols protocolId with
  | none =>
    simp only [hp] at h
    injection h with h'
    injection h' with hs he
    rw [← hs]
    exact hI
  | some protocol =>
    simp only [hp] at h
    by_cases hall : protocol.conditions.all (fun c => evaluateCondition env c context) = true
    · rw [if_pos hall] at h
      cases hsteps : protocol.steps with
      | nil =>
        simp only [hsteps] at h
        injection h with h'
        injection h' with hs he
        rw [← hs]
        exact hI
      | cons firstStep rest =>
        simp only [hsteps] at h
        cases hex : executeProtocolStep env fuel
            { s with activeProtocols := mapSet s.activeProtocols protocolId [firstStep.id] }
            protocol firstStep context with
        | none => simp only [hex] at h; exact absurd h (by simp)
        | some s2 =>
          simp only [hex] at h
          have hpid : protocol.id = protocolId := hI.2 protocolId protocol hp
          have hbase : (mapGet s.protocols protocol.id).isSome := by
            rw [hpid, hp]; rfl
          have hseed : EngineInv
              { s with activeProtocols := mapSet s.activeProtocols protocolId [firstStep.id] }
              ∧ ({ s with activeProtocols :=
                    mapSet s.activeProtocols protocolId [firstStep.id] } : EngineState).protocols
                = s.protocols := by
            refine ⟨⟨?_, hI.2⟩, rfl⟩
            intro pid hpid'
            have hpid'' : (mapGet (mapSet s.activeProtocols protocolId [firstStep.id]) pid).isSome :=
              hpid'
            rw [mapGet_mapSet] at hpid''
            by_cases hpe : pid = protocolId
            · subst hpe
              rw [hp]; rfl
            · rw [if_neg hpe] at hpid''
              exact hI.1 pid hpid''
          have hres := executeProtocolStep_preserves_inv env protocol context s.protocols hbase
            fuel _ firstStep s2 hseed hex
          injection h with h'
          injection h' with hs he
          rw [← hs]
          exact hres.1
    · rw [if_neg hall] at h
      injection h with h'
      injection h' with hs he
      rw [← hs]
      exact hI

theorem evalLoop_preserves_inv (env : Env) (fuel : Nat) (upd : ProtocolContext) :
    ∀ ids s s', EngineInv s → evalLoop env fuel upd s ids = some s' → EngineInv s' := by
  intro ids
  induction ids with
  | nil =>
    intro s s' hI h
    simp only [evalLoop] at h
    rw [← Option.some_inj.mp h]
    exact hI
  | cons pid rest ih =>
    intro s s' hI h
    simp only [evalLoop] at h
    cases hA : mapGet s.activeProtocols pid with
    | none =>
      simp only [hA] at h
      exact ih s s' hI h
    | some activeSteps =>
      simp only [hA] at h
      cases hP : mapGet s.protocols pid with
      | none =>
        simp only [hP] at h
        exact ih s s' hI h
      | some protocol =>
        simp only [hP] at h
        by_cases hall : protocol.conditions.all
            (fun c => evaluateCondition env c (evalContext upd activeSteps)) = true
        · rw [if_pos hall] at h
          cases hex : execStepIds
              (fun s' t => executeProtocolStep env fuel s' protocol t (evalContext upd activeSteps))
              protocol s activeSteps with
          | none => simp only [hex] at h; exact absurd h (by simp)
          | some s2 =>
            simp only [hex] at h
            have hpid : protocol.id = pid := hI.2 pid protocol hP
            have hbase : (mapGet s.protocols protocol.id).isSome := by
              rw [hpid, hP]; rfl
            have h2 := execStepIds_preserves
              (fun st => EngineInv st ∧ st.protocols = s.protocols)
              (fun s' t => executeProtocolStep env fuel s' protocol t (evalContext upd activeSteps))
              protocol
              (fun sa t sb hPs hexe => executeProtocolStep_preserves_inv env protocol
                (evalContext upd activeSteps) s.protocols hbase fuel sa t sb hPs hexe)
              activeSteps s s2 ⟨hI, rfl⟩ hex
            exact ih s2 s' h2.1 h
        · rw [if_neg hall] at h
          exact ih _ s' (deactivateProtocol_preserves_inv s pid hI) h

theorem reachable_engineInv (s : EngineState) (h : Reachable s) : EngineInv s := by
  induction h with
  | init =>
    exact ⟨fun pid hp => by simp [initState, mapGet] at hp,
      fun pid p hp => by simp [initState, mapGet] at hp⟩
  | load s p hr ih => exact loadProtocol_preserves_inv s p ih
  | activate env fuel s pid ctx s' e hr hact ih =>
    exact activateProtocol_preserves_inv env fuel s pid ctx s' e ih hact
  | evaluate env fuel s upd s' hr heval ih =>
    unfold evaluateProtocols at heval
    exact evalLoop_preserves_inv env fuel upd (s.activeProtocols.map (fun e => e.1)) s s' ih heval
  | deactivate s pid hr ih => exact deactivateProtocol_preserves_inv s pid ih

/-- C9: in every state reachable through the engine's operations, every
protocol id with an entry in the active-protocols map also has an entry in
the protocol registry: activation only creates an active entry after a
successful registry lookup, loading never removes registry entries, and no
other operation adds active entries. -/
theorem reachable_active_registered (s : EngineState) (h : Reachable s) :
    ∀ protocolId steps, mapGet s.activeProtocols protocolId = some steps →
      ∃ p, mapGet s.protocols protocolId = some p := by
  intro protocolId steps hs
  have hI := reachable_engineInv s h
  have := hI.1 protocolId (by rw [hs]; rfl)
  exact Option.isSome_iff_exists.mp this

/-- Witness for C9 at a concrete reachable state: load `roger-roger` into a
fresh engine, activate it (its first dispatch fails, which keeps it
active), and observe that the now-active id is indeed registered. -/
theorem reachable_active_registered_witness :
    ∃ s', activateProtocol envOk 1 (loadProtocol initState rogerRoger).1 "roger-roger" {}
        = some (s', none)
      ∧ mapGet s'.activeProtocols "roger-roger" = some ["init-comm"]
      ∧ ∃ p, mapGet s'.protocols "roger-roger" = some p := by
  refine ⟨_, rfl, rfl, ?_⟩
  exact reachable_active_registered _
    (Reachable.activate envOk 1 _ "roger-roger" {} _ none
      (Reachable.load initState rogerRoger Reachable.init) rfl)
    "roger-roger" ["init-comm"] rfl

/-! ## C10 — termination on acyclic step graphs -/

/-- A topological ranking of a protocol's `nextSteps` graph: the rank
strictly drops along every edge.  A finite graph admits such a ranking
exactly when it is acyclic (rank each step by the longest `nextSteps` path
out of it). -/
def StepRank (protocol : Protocol) (rank : String → Nat) : Prop :=
  ∀ step ∈ protocol.steps, ∀ nextId ∈ step.nextSteps, rank nextId < rank step.id

/-- Sanity check that a ranking rules out cycles: a step listing itself
among its own successors admits no ranking. -/
theorem stepRank_no_self_loop (protocol : Protocol) (rank : String → Nat)
    (h : StepRank protocol rank) (step : ProtocolStep) (hmem : step ∈ protocol.steps)
    (hself : step.id ∈ step.nextSteps) : False :=
  lt_irrefl _ (h step hmem step.id hself)

theorem execStepIds_isSome (exec : EngineState → ProtocolStep → Option EngineState)
    (protocol : Protocol) :
    ∀ ids, (∀ s t, t ∈ protocol.steps → t.id ∈ ids → (exec s t).isSome) →
      ∀ s, (execStepIds exec protocol s ids).isSome := by
  intro ids
  induction ids with
  | nil => intro _ s; simp [execStepIds]
  | cons stepId rest ih =>
    intro hexec s
    simp only [execStepIds]
    cases hfind : protocol.steps.find? (fun t => t.id = stepId) with
    | none => exact ih (fun s t hm hi => hexec s t hm (List.mem_cons_of_mem _ hi)) s
    | some t =>
      have hmem := List.mem_of_find?_eq_some hfind
      have hid : t.id = stepId := by simpa using List.find?_some hfind
      have hsome := hexec s t hmem (by rw [hid]; exact List.mem_cons_self _ _)
      show (match exec s t with
        | none => none
        | some s2 => execStepIds exec protocol s2 rest).isSome = true
      cases hex : exec s t with
      | none => rw [hex] at hsome; exact absurd hsome (by simp)
      | some s2 => exact ih (fun s t hm hi => hexec s t hm (List.mem_cons_of_mem _ hi)) s2

theorem executeProtocolStep_isSome_of_rank (env : Env) (protocol : Protocol)
    (context : ProtocolContext) (rank : String → Nat) (hrank : StepRank protocol rank) :
    ∀ fuel step, step ∈ protocol.steps → rank step.id < fuel →
      ∀ s, (executeProtocolStep env fuel s protocol step context).isSome := by
  intro fuel
  induction fuel with
  | zero => intro step _ hlt; exact absurd hlt (by simp)
  | succ fuel ih =>
    intro step hmem hlt s
    simp only [executeProtocolStep]
    cases ha : executeAction env step.action step.parameters with
    | some errMsg => rfl
    | none =>
      by_cases hc : stepIsComplete env step context
      · rw [if_pos hc]
        have hnext : ∀ s' t, t ∈ protocol.steps → t.id ∈ step.nextSteps →
            (executeProtocolStep env fuel s' protocol t context).isSome := by
          intro s' t hm hi
          have h1 : rank t.id < rank step.id := hrank step hmem t.id hi
          have h2 : rank t.id < fuel := by omega
          exact ih t hm h2 s'
        cases hp : progressAux (fun s' t => executeProtocolStep env fuel s' protocol t context)
            s protocol step with
        | none =>
          exfalso
          have hsome := execStepIds_isSome
            (fun s' t => executeProtocolStep env fuel s' protocol t context) protocol
            step.nextSteps hnext (frontierUpdate s protocol step)
          unfold progressAux at hp
          rw [hp] at hsome
          exact absurd hsome (by simp)
        | some s2 => rfl
      · rw [if_neg hc]; rfl

/-- C10: for every protocol whose `nextSteps` graph is acyclic — witnessed
by a topological ranking that drops along every edge — executing any of its
steps terminates: any fuel exceeding the step's rank lets the whole
execute-then-progress cascade finish, so the source recursion (which the
fuel bounds) performs finitely many step executions per triggering
event. -/
theorem acyclic_execution_terminates (env : Env) (protocol : Protocol)
    (context : ProtocolContext) (rank : String → Nat) (s : EngineState)
    (step : ProtocolStep) (fuel : Nat)
    (hrank : StepRank protocol rank) (hmem : step ∈ protocol.steps)
    (hfuel : rank step.id < fuel) :
    (executeProtocolStep env fuel s protocol step context).isSome :=
  executeProtocolStep_isSome_of_rank env protocol context rank hrank fuel step hmem hfuel s

/-- Witness for C10 at the concrete fan-out protocol (root branching to two
terminal steps — an acyclic graph ranked by path length): executing the
root with fuel `2` terminates. -/
theorem acyclic_execution_terminates_witness :
    StepRank fanOutProtocol (fun id => if id = "root" then 1 else 0)
    ∧ (executeProtocolStep envOk 2 stateWithFanActive fanOutProtocol fanStepRoot {}).isSome := by
  have hrank : StepRank fanOutProtocol (fun id => if id = "root" then 1 else 0) := by
    unfold StepRank
    decide
  refine ⟨hrank, ?_⟩
  exact acyclic_execution_terminates envOk fanOutProtocol {}
    (fun id => if id = "root" then 1 else 0) stateWithFanActive fanStepRoot 2 hrank
    (List.mem_cons_self _ _) (by decide)
